import Mathlib

/-!
Verification of the batched operation executor of `gmail-fast-mcp`
(`src/gmail_mcp/tools/batch_ops.py`, `process_batches`) and of the way the
public tools `batch_modify_emails` and `batch_trash_emails` call it.

Embedding conventions:
* A Python function that may raise is modelled as returning
  `Except String α`; the `String` is `str(err)`, the stringified exception.
* The caller-supplied `process_fn` is an opaque `f : List T → Except String (List U)`.
* `for i in range(0, len(items), batch_size)` is modelled index by index:
  for a positive step the indices are the multiples of the step below the
  stop value; a step of `0` raises `ValueError`; a negative step with
  `start = 0 ≤ stop` yields no iterations at all.
* To state claims about how often `process_fn` is invoked, the executor is
  instrumented: a `BatchRun` record carries, besides the `successes` and
  `failures` lists of the source, the list `calls` of argument lists passed
  to `process_fn`, appended in invocation order.  `process_batches` itself
  projects away the trace, returning exactly the source's pair.
-/

namespace GmailBatch

universe u v

/-- State of one execution of the batch loop: the two result lists of the
source (`successes`, `failures`) plus the instrumentation trace `calls`
recording each argument list `process_fn` was invoked with, in order. -/
structure BatchRun (T : Type u) (U : Type v) where
  successes : List U
  failures : List (T × String)
  calls : List (List T)

/-- The initial state: `successes = []`, `failures = []`, no calls yet. -/
def BatchRun.empty {T : Type u} {U : Type v} : BatchRun T U := ⟨[], [], []⟩

/-- Componentwise concatenation of two run states. -/
def BatchRun.append {T : Type u} {U : Type v} (a b : BatchRun T U) : BatchRun T U :=
  ⟨a.successes ++ b.successes, a.failures ++ b.failures, a.calls ++ b.calls⟩

/-- Body of the per-item fallback loop (`batch_ops.py` lines 33-38): invoke
`process_fn([item])`; on success extend `successes` with the returned list,
on failure append `(item, str(item_err))` to `failures`. -/
def retryItem {T : Type u} {U : Type v} (f : List T → Except String (List U))
    (item : T) (a : BatchRun T U) : BatchRun T U :=
  match f [item] with
  | .ok result => ⟨a.successes ++ result, a.failures, a.calls ++ [[item]]⟩
  | .error e => ⟨a.successes, a.failures ++ [(item, e)], a.calls ++ [[item]]⟩

/-- Body of the chunk loop (`batch_ops.py` lines 28-38): try
`process_fn(batch)`; on success extend `successes` with the results; on any
exception discard the chunk-level error and retry each item of the batch
individually via `retryItem`. -/
def runChunk {T : Type u} {U : Type v} (f : List T → Except String (List U))
    (batch : List T) (acc : BatchRun T U) : BatchRun T U :=
  match f batch with
  | .ok results => ⟨acc.successes ++ results, acc.failures, acc.calls ++ [batch]⟩
  | .error _ =>
      batch.foldl (fun a item => retryItem f item a)
        ⟨acc.successes, acc.failures, acc.calls ++ [batch]⟩

/-- Number of iterations of `range(0, n, bs)` for a positive step `bs`,
i.e. the number of chunks: `⌈n / bs⌉`. -/
def numChunks (n bs : Nat) : Nat := (n + bs - 1) / bs

/-- The indices produced by `range(0, n, bs)` for a positive step `bs`:
the multiples of `bs` below `n`. -/
def chunkStarts (n bs : Nat) : List Nat :=
  (List.range (numChunks n bs)).map (· * bs)

/-- The successive slices `items[i : i + bs]` taken by the loop of
`process_batches` for a positive step `bs`. -/
def chunksOf {T : Type u} (items : List T) (bs : Nat) : List (List T) :=
  (chunkStarts items.length bs).map (fun i => (items.drop i).take bs)

/-- The chunk loop of `process_batches` for a positive step `bs`, folding
`runChunk` over the slices, starting from `acc`. -/
def runBatches {T : Type u} {U : Type v} (items : List T) (bs : Nat)
    (f : List T → Except String (List U)) (acc : BatchRun T U) : BatchRun T U :=
  (chunksOf items bs).foldl (fun a batch => runChunk f batch a) acc

/-- The full loop of `process_batches` with Python `range` semantics for the
step `batch_size`: step `0` raises `ValueError`, a negative step yields no
iterations (every item silently skipped), a positive step runs the chunk
loop from the empty state. -/
def runBatchesI {T : Type u} {U : Type v} (items : List T) (batch_size : Int)
    (f : List T → Except String (List U)) : Except String (BatchRun T U) :=
  if batch_size = 0 then .error "range() arg 3 must not be zero"
  else if batch_size < 0 then .ok BatchRun.empty
  else .ok (runBatches items batch_size.toNat f BatchRun.empty)

/-- `process_batches` (`batch_ops.py` lines 14-40): returns the pair
`(successes, failures)`; the instrumentation trace is projected away. -/
def process_batches {T : Type u} {U : Type v} (items : List T) (batch_size : Int)
    (f : List T → Except String (List U)) :
    Except String (List U × List (T × String)) :=
  (runBatchesI items batch_size f).map (fun r => (r.successes, r.failures))

/-- Python truthiness of `batch_size or 50` for `batch_size : int | None`:
`None` and `0` are falsy and give `50`; every other integer (negative ones
included) is truthy and passes through. -/
def pyOr50 (batch_size : Option Int) : Int :=
  match batch_size with
  | none => 50
  | some b => if b = 0 then 50 else b

/-- The inner `_modify_batch` of `batch_modify_emails` (`batch_ops.py`
lines 59-66): for each id in the batch call the Gmail modify endpoint
(modelled by `modifyOne`, which may raise) and append
`{"messageId": mid, "success": True}`; the first raising call aborts the
whole batch call. -/
def modify_batch (modifyOne : String → Except String Unit)
    (batch : List String) : Except String (List (String × Bool)) :=
  batch.foldlM (fun results mid => (modifyOne mid).map (fun _ => results ++ [(mid, true)])) []

/-- The call `process_batches(message_ids, batch_size or 50, _modify_batch)`
made by `batch_modify_emails` (`batch_ops.py` lines 68-70). -/
def batch_modify_emails_core (message_ids : List String) (batch_size : Option Int)
    (modifyOne : String → Except String Unit) :
    Except String (List (String × Bool) × List (String × String)) :=
  process_batches message_ids (pyOr50 batch_size) (modify_batch modifyOne)

/-- The inner `_trash_batch` of `batch_trash_emails` (`trash_ops.py`
lines 30-35): same shape as `_modify_batch`, with the trash endpoint. -/
def trash_batch (trashOne : String → Except String Unit)
    (batch : List String) : Except String (List (String × Bool)) :=
  batch.foldlM (fun results mid => (trashOne mid).map (fun _ => results ++ [(mid, true)])) []

/-- The call `process_batches(message_ids, batch_size or 50, _trash_batch)`
made by `batch_trash_emails` (`trash_ops.py` line 37). -/
def batch_trash_emails_core (message_ids : List String) (batch_size : Option Int)
    (trashOne : String → Except String Unit) :
    Except String (List (String × Bool) × List (String × String)) :=
  process_batches message_ids (pyOr50 batch_size) (trash_batch trashOne)

/-- Successes contributed by the singleton fallback call for `x`: the
returned records on success, nothing on failure. -/
def singleSuccesses {T : Type u} {U : Type v} (f : List T → Except String (List U))
    (x : T) : List U :=
  match f [x] with
  | .ok r => r
  | .error _ => []

/-- Failure record contributed by the singleton fallback call for `x`:
`(x, str(err))` when it raises, nothing on success. -/
def singleFailure {T : Type u} {U : Type v} (f : List T → Except String (List U))
    (x : T) : Option (T × String) :=
  match f [x] with
  | .ok _ => none
  | .error e => some (x, e)

/-- Successes contributed by one chunk, starting from the empty state. -/
def chunkSuccesses {T : Type u} {U : Type v} (f : List T → Except String (List U))
    (c : List T) : List U :=
  (runChunk f c BatchRun.empty).successes

/-- Failures contributed by one chunk, starting from the empty state. -/
def chunkFailures {T : Type u} {U : Type v} (f : List T → Except String (List U))
    (c : List T) : List (T × String) :=
  (runChunk f c BatchRun.empty).failures

/-- Calls made while processing one chunk, starting from the empty state. -/
def chunkCalls {T : Type u} {U : Type v} (f : List T → Except String (List U))
    (c : List T) : List (List T) :=
  (runChunk f c BatchRun.empty).calls

/-- Items and transformation function of the concrete scenario of the spec:
five numbered items, and a function that raises exactly on the argument
list `[5]` and otherwise returns one record (`item + 100`) per item. -/
def itemsC5 : List Nat := [1, 2, 3, 4, 5]

/-- Transformation function of the concrete scenario: fails on `[5]`. -/
def fC5 : List Nat → Except String (List Nat) := fun l =>
  if l = [5] then .error "boom" else .ok (l.map (fun x => x + 100))

/-! ### Algebra of `BatchRun.append` -/

theorem BatchRun.append_empty {T : Type u} {U : Type v} (a : BatchRun T U) :
    a.append BatchRun.empty = a := by
  cases a; simp [BatchRun.append, BatchRun.empty]

theorem BatchRun.empty_append {T : Type u} {U : Type v} (b : BatchRun T U) :
    BatchRun.empty.append b = b := by
  cases b; simp [BatchRun.append, BatchRun.empty]

theorem BatchRun.append_assoc {T : Type u} {U : Type v} (a b c : BatchRun T U) :
    (a.append b).append c = a.append (b.append c) := by
  cases a; cases b; cases c; simp [BatchRun.append]

theorem retryItem_append {T : Type u} {U : Type v} (f : List T → Except String (List U))
    (x : T) (a b : BatchRun T U) :
    retryItem f x (a.append b) = a.append (retryItem f x b) := by
  cases h : f [x] <;> cases a <;> cases b <;> simp [retryItem, h, BatchRun.append]

theorem foldl_retry_append {T : Type u} {U : Type v} (f : List T → Except String (List U))
    (c : List T) : ∀ (a b : BatchRun T U),
    c.foldl (fun s x => retryItem f x s) (a.append b)
      = a.append (c.foldl (fun s x => retryItem f x s) b) := by
  induction c with
  | nil => intro a b; simp
  | cons x c ih =>
      intro a b
      simp only [List.foldl_cons]
      rw [retryItem_append, ih]

theorem runChunk_append {T : Type u} {U : Type v} (f : List T → Except String (List U))
    (c : List T) (a b : BatchRun T U) :
    runChunk f c (a.append b) = a.append (runChunk f c b) := by
  cases h : f c with
  | ok r => cases a; cases b; simp [runChunk, h, BatchRun.append]
  | error e =>
      simp only [runChunk, h]
      have hinit : (⟨(a.append b).successes, (a.append b).failures,
          (a.append b).calls ++ [c]⟩ : BatchRun T U)
          = a.append ⟨b.successes, b.failures, b.calls ++ [c]⟩ := by
        cases a; cases b; simp [BatchRun.append]
      rw [hinit, foldl_retry_append]

theorem runChunk_delta {T : Type u} {U : Type v} (f : List T → Except String (List U))
    (c : List T) (a : BatchRun T U) :
    runChunk f c a = a.append (runChunk f c BatchRun.empty) := by
  conv_lhs => rw [← BatchRun.append_empty a]
  exact runChunk_append f c a BatchRun.empty

/-- Decomposition of the chunk loop: folding `runChunk` over any list of
chunks concatenates, per chunk and in order, the successes, failures and
calls each chunk contributes from the empty state. -/
theorem foldl_runChunk_decomp {T : Type u} {U : Type v}
    (f : List T → Except String (List U)) (cs : List (List T)) :
    ∀ acc : BatchRun T U,
    cs.foldl (fun a c => runChunk f c a) acc
      = acc.append ⟨(cs.map (chunkSuccesses f)).flatten,
                    (cs.map (chunkFailures f)).flatten,
                    (cs.map (chunkCalls f)).flatten⟩ := by
  induction cs with
  | nil =>
      intro acc
      simp only [List.foldl_nil, List.map_nil, List.flatten_nil]
      exact (BatchRun.append_empty acc).symm
  | cons c cs ih =>
      intro acc
      simp only [List.foldl_cons]
      rw [ih, runChunk_delta]
      rw [BatchRun.append_assoc]
      simp [BatchRun.append, chunkSuccesses, chunkFailures, chunkCalls]

/-- Decomposition of `runBatches` from the empty state. -/
theorem runBatches_decomp {T : Type u} {U : Type v} (items : List T) (bs : Nat)
    (f : List T → Except String (List U)) :
    runBatches items bs f BatchRun.empty
      = ⟨((chunksOf items bs).map (chunkSuccesses f)).flatten,
         ((chunksOf items bs).map (chunkFailures f)).flatten,
         ((chunksOf items bs).map (chunkCalls f)).flatten⟩ := by
  rw [runBatches, foldl_runChunk_decomp]
  exact BatchRun.empty_append _

/-! ### Per-chunk characterizations -/

theorem runChunk_ok {T : Type u} {U : Type v} {f : List T → Except String (List U)}
    {c : List T} {r : List U} (h : f c = .ok r) :
    runChunk f c BatchRun.empty = ⟨r, [], [c]⟩ := by
  simp [runChunk, h, BatchRun.empty]

theorem foldl_retry_eq {T : Type u} {U : Type v} (f : List T → Except String (List U)) :
    ∀ c : List T,
    c.foldl (fun s x => retryItem f x s) BatchRun.empty
      = ⟨(c.map (singleSuccesses f)).flatten,
         c.filterMap (singleFailure f),
         c.map (fun x => [x])⟩ := by
  intro c
  induction c with
  | nil => simp [BatchRun.empty]
  | cons x c ih =>
      simp only [List.foldl_cons]
      have hstep : retryItem f x BatchRun.empty
          = (retryItem f x BatchRun.empty).append BatchRun.empty :=
        (BatchRun.append_empty _).symm
      rw [hstep, foldl_retry_append, ih]
      cases h : f [x] <;>
        simp [retryItem, h, BatchRun.append, BatchRun.empty,
          singleSuccesses, singleFailure, List.filterMap_cons]

theorem runChunk_error {T : Type u} {U : Type v} {f : List T → Except String (List U)}
    {c : List T} {e : String} (h : f c = .error e) :
    runChunk f c BatchRun.empty
      = ⟨(c.map (singleSuccesses f)).flatten,
         c.filterMap (singleFailure f),
         c :: c.map (fun x => [x])⟩ := by
  simp only [runChunk, h, BatchRun.empty, List.nil_append]
  have hinit : (⟨[], [], [c]⟩ : BatchRun T U)
      = (⟨[], [], [c]⟩ : BatchRun T U).append BatchRun.empty :=
    (BatchRun.append_empty _).symm
  rw [hinit, foldl_retry_append, foldl_retry_eq]
  simp [BatchRun.append]

/-! ### The slices of the `range` loop form a take/drop recursion -/

theorem numChunks_zero (bs : Nat) : numChunks 0 bs = 0 := by
  unfold numChunks
  cases bs with
  | zero => rfl
  | succ b => exact Nat.div_eq_of_lt (by omega)

theorem numChunks_succ {n bs : Nat} (hbs : 0 < bs) (hn : 0 < n) :
    numChunks n bs = numChunks (n - bs) bs + 1 := by
  unfold numChunks
  rw [Nat.div_eq_sub_div hbs (by omega)]
  congr 1
  rcases le_or_lt bs n with h | h
  · congr 1
    omega
  · have h1 : n - bs = 0 := by omega
    rw [h1, Nat.div_eq_of_lt (by omega), Nat.div_eq_of_lt (by omega)]

theorem chunksOf_nil {T : Type u} (bs : Nat) : chunksOf ([] : List T) bs = [] := by
  simp [chunksOf, chunkStarts, numChunks_zero]

theorem chunksOf_cons {T : Type u} {bs : Nat} (hbs : 0 < bs) (l : List T)
    (hl : l ≠ []) :
    chunksOf l bs = l.take bs :: chunksOf (l.drop bs) bs := by
  have hn : 0 < l.length := List.length_pos.mpr hl
  unfold chunksOf chunkStarts
  rw [numChunks_succ hbs hn, List.length_drop, List.range_succ_eq_map]
  simp only [List.map_cons, List.map_map, Function.comp_def]
  congr 1
  · simp
  · apply List.map_congr_left
    intro j _
    rw [List.drop_drop]
    congr 2
    rw [Nat.succ_mul]
    omega

/-- Chunk-structured induction: for a positive chunk size, a property closed
under removing the first `bs` elements holds of every list. -/
theorem chunksOf_rec {T : Type u} {bs : Nat} (hbs : 0 < bs) (P : List T → Prop)
    (hnil : P []) (hstep : ∀ l : List T, l ≠ [] → P (List.drop bs l) → P l) :
    ∀ l : List T, P l := by
  have key : ∀ (n : Nat) (l : List T), l.length ≤ n → P l := by
    intro n
    induction n with
    | zero =>
        intro l h
        have : l = [] := List.length_eq_zero.mp (Nat.le_zero.mp h)
        rw [this]; exact hnil
    | succ n ih =>
        intro l h
        by_cases hl : l = []
        · rw [hl]; exact hnil
        · refine hstep l hl (ih _ ?_)
          rw [List.length_drop]
          have : 0 < l.length := List.length_pos.mpr hl
          omega
  intro l
  exact key l.length l le_rfl

theorem chunksOf_flatten {T : Type u} {bs : Nat} (hbs : 0 < bs) :
    ∀ l : List T, (chunksOf l bs).flatten = l := by
  apply chunksOf_rec hbs
  · rw [chunksOf_nil]; rfl
  · intro l hl ih
    rw [chunksOf_cons hbs l hl]
    simp only [List.flatten_cons, ih]
    exact List.take_append_drop bs l

theorem chunkStarts_mem_lt {n bs j : Nat} (hbs : 0 < bs)
    (hj : j < numChunks n bs) : j * bs < n := by
  unfold numChunks at hj
  have h2 : j + 1 ≤ (n + bs - 1) / bs := hj
  have h3 : (j + 1) * bs ≤ ((n + bs - 1) / bs) * bs := Nat.mul_le_mul_right bs h2
  have h4 : ((n + bs - 1) / bs) * bs ≤ n + bs - 1 := Nat.div_mul_le_self _ _
  have h5 : (j + 1) * bs = j * bs + bs := Nat.succ_mul j bs
  omega

theorem chunksOf_mem_props {T : Type u} {bs : Nat} (hbs : 0 < bs) (l : List T) :
    ∀ c ∈ chunksOf l bs, c ≠ [] ∧ c.length ≤ bs := by
  intro c hc
  unfold chunksOf chunkStarts at hc
  rw [List.map_map, List.mem_map] at hc
  obtain ⟨j, hj, rfl⟩ := hc
  rw [List.mem_range] at hj
  have hlt : j * bs < l.length := chunkStarts_mem_lt hbs hj
  constructor
  · rw [← List.length_pos]
    simp only [Function.comp_apply, List.length_take, List.length_drop]
    omega
  · simp only [Function.comp_apply, List.length_take]
    omega

theorem chunksOf_length {T : Type u} (l : List T) (bs : Nat) :
    (chunksOf l bs).length = numChunks l.length bs := by
  simp [chunksOf, chunkStarts]

theorem chunksOf_getElem_length {T : Type u} {bs : Nat} (hbs : 0 < bs)
    (l : List T) (i : Nat) (h : i < (chunksOf l bs).length)
    (hlast : i + 1 < (chunksOf l bs).length) :
    (chunksOf l bs)[i].length = bs := by
  have hlen : (chunksOf l bs).length = numChunks l.length bs :=
    chunksOf_length l bs
  have hi2 : i + 1 < numChunks l.length bs := hlen ▸ hlast
  have hfull : (i + 1) * bs < l.length := chunkStarts_mem_lt hbs hi2
  have hexp : (i + 1) * bs = i * bs + bs := Nat.succ_mul i bs
  have hg : (chunksOf l bs)[i] = (l.drop (i * bs)).take bs := by
    simp [chunksOf, chunkStarts, List.getElem_map, List.getElem_range]
  rw [hg]
  simp only [List.length_take, List.length_drop]
  omega

/-! ### Counting, membership and order facts -/

theorem runBatchesI_pos {T : Type u} {U : Type v} (items : List T)
    {batch_size : Int} (hbs : 1 ≤ batch_size) (f : List T → Except String (List U)) :
    runBatchesI items batch_size f
      = .ok (runBatches items batch_size.toNat f BatchRun.empty) := by
  unfold runBatchesI
  rw [if_neg (by omega), if_neg (by omega)]

theorem process_batches_pos {T : Type u} {U : Type v} (items : List T)
    {batch_size : Int} (hbs : 1 ≤ batch_size) (f : List T → Except String (List U)) :
    process_batches items batch_size f
      = .ok ((runBatches items batch_size.toNat f BatchRun.empty).successes,
             (runBatches items batch_size.toNat f BatchRun.empty).failures) := by
  rw [process_batches, runBatchesI_pos items hbs f]
  rfl

theorem singles_len {T : Type u} {U : Type v} {f : List T → Except String (List U)}
    (hf1 : ∀ (x : T) (r : List U), f [x] = .ok r → r.length = 1) :
    ∀ c : List T,
    ((c.map (singleSuccesses f)).flatten).length
      + (c.filterMap (singleFailure f)).length = c.length := by
  intro c
  induction c with
  | nil => simp
  | cons x c ih =>
      cases h : f [x] with
      | ok r =>
          have : r.length = 1 := hf1 x r h
          simp [singleSuccesses, singleFailure, h, List.filterMap_cons] at *
          omega
      | error e =>
          simp [singleSuccesses, singleFailure, h, List.filterMap_cons] at *
          omega

theorem chunk_len {T : Type u} {U : Type v} {f : List T → Except String (List U)}
    (hf : ∀ (l : List T) (r : List U), f l = .ok r → r.length = l.length)
    (c : List T) :
    (chunkSuccesses f c).length + (chunkFailures f c).length = c.length := by
  cases h : f c with
  | ok r =>
      have hr : r.length = c.length := hf c r h
      simp [chunkSuccesses, chunkFailures, runChunk_ok h, hr]
  | error e =>
      have hf1 : ∀ (x : T) (r : List U), f [x] = .ok r → r.length = 1 := by
        intro x r hx
        simpa using hf [x] r hx
      simp only [chunkSuccesses, chunkFailures, runChunk_error h]
      exact singles_len hf1 c

theorem sum_map_add {α : Type u} :
    ∀ (cs : List α) (g h k : α → Nat), (∀ x ∈ cs, g x + h x = k x) →
    (cs.map g).sum + (cs.map h).sum = (cs.map k).sum := by
  intro cs
  induction cs with
  | nil => intro g h k _; simp
  | cons c cs ih =>
      intro g h k hp
      have hc := hp c (by simp)
      have hrest := ih g h k (fun x hx => hp x (by simp [hx]))
      simp only [List.map_cons, List.sum_cons]
      omega

theorem runBatches_len {T : Type u} {U : Type v} {bs : Nat} (hbs : 0 < bs)
    (items : List T) {f : List T → Except String (List U)}
    (hf : ∀ (l : List T) (r : List U), f l = .ok r → r.length = l.length) :
    (runBatches items bs f BatchRun.empty).successes.length
      + (runBatches items bs f BatchRun.empty).failures.length
      = items.length := by
  rw [runBatches_decomp]
  simp only [List.length_flatten, List.map_map]
  have h1 := sum_map_add (chunksOf items bs)
    (List.length ∘ chunkSuccesses f) (List.length ∘ chunkFailures f) List.length
    (fun c _ => chunk_len hf c)
  rw [h1]
  have h2 : ((chunksOf items bs).map List.length).sum
      = (chunksOf items bs).flatten.length := (List.length_flatten _).symm
  rw [h2, chunksOf_flatten hbs]

theorem chunkFailures_mem {T : Type u} {U : Type v}
    (f : List T → Except String (List U)) (c : List T) :
    ∀ p ∈ chunkFailures f c, f [p.1] = .error p.2 := by
  intro p hp
  cases h : f c with
  | ok r => simp [chunkFailures, runChunk_ok h] at hp
  | error e =>
      rw [chunkFailures, runChunk_error h] at hp
      simp only [List.mem_filterMap] at hp
      obtain ⟨x, _, hx⟩ := hp
      unfold singleFailure at hx
      cases h2 : f [x] with
      | ok r => rw [h2] at hx; exact absurd hx (by simp)
      | error ex =>
          rw [h2] at hx
          have : (x, ex) = p := by simpa using hx
          rw [← this]
          exact h2

theorem failures_mem {T : Type u} {U : Type v} (items : List T) (bs : Nat)
    (f : List T → Except String (List U)) :
    ∀ p ∈ (runBatches items bs f BatchRun.empty).failures,
      f [p.1] = .error p.2 := by
  intro p hp
  rw [runBatches_decomp] at hp
  simp only [List.mem_flatten, List.mem_map] at hp
  obtain ⟨l, ⟨c, _, rfl⟩, hpl⟩ := hp
  exact chunkFailures_mem f c p hpl

/-! ### Call-trace facts -/

theorem chunkCalls_len {T : Type u} {U : Type v}
    (f : List T → Except String (List U)) (c : List T) :
    (chunkCalls f c).length
      = match f c with
        | .ok _ => 1
        | .error _ => 1 + c.length := by
  cases h : f c with
  | ok r => simp [chunkCalls, runChunk_ok h]
  | error e => simp [chunkCalls, runChunk_error h, Nat.add_comm]

theorem calls_length {T : Type u} {U : Type v} (items : List T) (bs : Nat)
    (f : List T → Except String (List U)) :
    (runBatches items bs f BatchRun.empty).calls.length
      = ((chunksOf items bs).map (fun c =>
          match f c with
          | .ok _ => 1
          | .error _ => 1 + c.length)).sum := by
  rw [runBatches_decomp]
  simp only [List.length_flatten, List.map_map]
  congr 1
  apply List.map_congr_left
  intro c _
  exact chunkCalls_len f c

theorem sum_map_one {α : Type u} :
    ∀ (cs : List α) (g : α → Nat), (∀ x ∈ cs, g x = 1) → (cs.map g).sum = cs.length := by
  intro cs
  induction cs with
  | nil => intro g _; simp
  | cons c cs ih =>
      intro g hp
      have hc := hp c (by simp)
      have hrest := ih g (fun x hx => hp x (by simp [hx]))
      simp only [List.map_cons, List.sum_cons, List.length_cons]
      omega

theorem flatten_map_singleton {T : Type u} :
    ∀ c : List T, (c.map (fun x => [x])).flatten = c := by
  intro c
  induction c with
  | nil => rfl
  | cons x c ih => simp [ih]

theorem chunkCalls_flatten_count {T : Type u} {U : Type v} [DecidableEq T]
    (f : List T → Except String (List U)) (c : List T) (x : T) :
    ((chunkCalls f c).flatten).count x ≤ 2 * c.count x := by
  cases h : f c with
  | ok r =>
      simp only [chunkCalls, runChunk_ok h, List.flatten_cons, List.flatten_nil,
        List.append_nil]
      omega
  | error e =>
      simp only [chunkCalls, runChunk_error h, List.flatten_cons,
        flatten_map_singleton, List.count_append]
      omega

theorem calls_count {T : Type u} {U : Type v} [DecidableEq T] {bs : Nat}
    (hbs : 0 < bs) (items : List T) (f : List T → Except String (List U)) (x : T) :
    ((runBatches items bs f BatchRun.empty).calls.flatten).count x
      ≤ 2 * items.count x := by
  rw [runBatches_decomp]
  have key : ∀ cs : List (List T),
      (((cs.map (chunkCalls f)).flatten).flatten).count x
        ≤ 2 * (cs.flatten.count x) := by
    intro cs
    induction cs with
    | nil => simp
    | cons c cs ih =>
        simp only [List.map_cons, List.flatten_cons, List.flatten_append,
          List.count_append]
        have h1 := chunkCalls_flatten_count f c x
        omega
  have h2 := key (chunksOf items bs)
  rwa [chunksOf_flatten hbs] at h2

/-! ### Facts for the all-failing transformation -/

theorem chunkSuccesses_allfail {T : Type u} {U : Type v}
    {f : List T → Except String (List U)}
    (hferr : ∀ l : List T, ∃ e, f l = .error e) (c : List T) :
    chunkSuccesses f c = [] := by
  obtain ⟨e, hc⟩ := hferr c
  rw [chunkSuccesses, runChunk_error hc]
  have : ∀ d : List T, (d.map (singleSuccesses f)).flatten = [] := by
    intro d
    induction d with
    | nil => rfl
    | cons y d ih =>
        obtain ⟨ey, hy⟩ := hferr [y]
        simp [singleSuccesses, hy, ih]
  exact this c

theorem chunkFailures_allfail {T : Type u} {U : Type v}
    {f : List T → Except String (List U)}
    (hferr : ∀ l : List T, ∃ e, f l = .error e) (c : List T) :
    (chunkFailures f c).map Prod.fst = c := by
  obtain ⟨e, hc⟩ := hferr c
  rw [chunkFailures, runChunk_error hc]
  have : ∀ d : List T, (d.filterMap (singleFailure f)).map Prod.fst = d := by
    intro d
    induction d with
    | nil => rfl
    | cons y d ih =>
        obtain ⟨ey, hy⟩ := hferr [y]
        simp only [List.filterMap_cons, singleFailure, hy, List.map_cons, ih]
  exact this c

/-! ### Order of the failure list -/

theorem filterMap_failure_fst_sublist {T : Type u} {U : Type v}
    (f : List T → Except String (List U)) :
    ∀ c : List T, ((c.filterMap (singleFailure f)).map Prod.fst).Sublist c := by
  intro c
  induction c with
  | nil => simp
  | cons x c ih =>
      cases h : f [x] with
      | ok r =>
          simp only [List.filterMap_cons, singleFailure, h]
          exact ih.cons x
      | error e =>
          simp only [List.filterMap_cons, singleFailure, h, List.map_cons]
          exact ih.cons₂ x

theorem chunkFailures_fst_sublist {T : Type u} {U : Type v}
    (f : List T → Except String (List U)) (c : List T) :
    ((chunkFailures f c).map Prod.fst).Sublist c := by
  cases h : f c with
  | ok r => simp [chunkFailures, runChunk_ok h]
  | error e =>
      rw [chunkFailures, runChunk_error h]
      exact filterMap_failure_fst_sublist f c

theorem flatten_sublist_of_pointwise {T : Type u} (g : List T → List T) :
    ∀ cs : List (List T), (∀ c ∈ cs, (g c).Sublist c) →
      ((cs.map g).flatten).Sublist cs.flatten := by
  intro cs
  induction cs with
  | nil => intro _; simp
  | cons c cs ih =>
      intro hp
      simp only [List.map_cons, List.flatten_cons]
      exact (hp c (by simp)).append (ih (fun d hd => hp d (by simp [hd])))

theorem failures_fst_sublist {T : Type u} {U : Type v} {bs : Nat} (hbs : 0 < bs)
    (items : List T) (f : List T → Except String (List U)) :
    (((runBatches items bs f BatchRun.empty).failures).map Prod.fst).Sublist items := by
  rw [runBatches_decomp]
  simp only [List.map_flatten, List.map_map]
  have h1 : ((chunksOf items bs).map
      (fun c => (chunkFailures f c).map Prod.fst)).flatten.Sublist
      (chunksOf items bs).flatten :=
    flatten_sublist_of_pointwise _ _ (fun c _ => chunkFailures_fst_sublist f c)
  rw [chunksOf_flatten hbs] at h1
  have h2 : (List.map Prod.fst ∘ chunkFailures f)
      = fun c => (chunkFailures f c).map Prod.fst := rfl
  rwa [h2]

/-! ### The claims -/

/-- Claim C1: for every non-empty list of items and every chunk size ≥ 1, if
the transformation function, on every call that succeeds, returns exactly
one result record per item it was given, then `process_batches` returns
`(successes, failures)` with `|successes| + |failures|` equal to the number
of input items. -/
theorem claim_C1 {T : Type u} {U : Type v} (items : List T) (batch_size : Int)
    (f : List T → Except String (List U)) (hne : items ≠ []) (hbs : 1 ≤ batch_size)
    (hf : ∀ (l : List T) (r : List U), f l = .ok r → r.length = l.length) :
    ∃ s fl, process_batches items batch_size f = .ok (s, fl)
      ∧ s.length + fl.length = items.length :=
  ⟨_, _, process_batches_pos items hbs f,
    runBatches_len (by omega) items hf⟩

/-- Witness for C1 on a concrete run. -/
theorem claim_C1_witness :
    ∃ s fl, process_batches [1, 2, 3] (2 : Int)
        (fun l => Except.ok (l.map (fun x : Nat => x + 100))) = .ok (s, fl)
      ∧ s.length + fl.length = 3 :=
  claim_C1 [1, 2, 3] 2 (fun l => Except.ok (l.map (fun x : Nat => x + 100)))
    (by simp) (by norm_num) (fun l r h => by cases h; simp)

/-- Claim C2: for every list of items, chunk size ≥ 1 and transformation
function, `process_batches` completes with an `ok` pair — no error raised by
the transformation function propagates — and only per-item outcomes after
the fallback appear in the failure list: every failure pair `(t, e)` is the
stringified error of the singleton call `f [t]`, never a chunk-level one. -/
theorem claim_C2 {T : Type u} {U : Type v} (items : List T) (batch_size : Int)
    (f : List T → Except String (List U)) (hbs : 1 ≤ batch_size) :
    ∃ s fl, process_batches items batch_size f = .ok (s, fl)
      ∧ ∀ p ∈ fl, f [p.1] = .error p.2 :=
  ⟨_, _, process_batches_pos items hbs f,
    failures_mem items batch_size.toNat f⟩

/-- Witness for C2 on a concrete run with a failing transformation. -/
theorem claim_C2_witness :
    ∃ s fl, process_batches [1, 2] (1 : Int)
        (fun _ : List Nat => (Except.error "fail" : Except String (List Nat)))
        = .ok (s, fl)
      ∧ ∀ p ∈ fl, (fun _ : List Nat =>
          (Except.error "fail" : Except String (List Nat))) [p.1] = .error p.2 :=
  claim_C2 [1, 2] 1 (fun _ => Except.error "fail") (by norm_num)

/-- Claim C3: with chunk size ≥ 1, if every chunk-level call succeeds the
transformation function is invoked exactly `⌈N / C⌉` times; in general a
chunk contributes one call if its bulk call succeeds and `1 + K` calls
(bulk plus one singleton per item) if it fails; and no item is ever passed
to the transformation function more than twice in total (each occurrence of
a value in the input accounts for at most two occurrences across all call
argument lists). -/
theorem claim_C3 {T : Type u} {U : Type v} [DecidableEq T] (items : List T)
    (batch_size : Int) (f : List T → Except String (List U)) (hbs : 1 ≤ batch_size) :
    ((∀ c ∈ chunksOf items batch_size.toNat, ∃ r, f c = .ok r) →
        (runBatches items batch_size.toNat f BatchRun.empty).calls.length
          = (items.length + batch_size.toNat - 1) / batch_size.toNat)
    ∧ (runBatches items batch_size.toNat f BatchRun.empty).calls.length
        = ((chunksOf items batch_size.toNat).map (fun c =>
            match f c with
            | .ok _ => 1
            | .error _ => 1 + c.length)).sum
    ∧ ∀ x : T,
        ((runBatches items batch_size.toNat f BatchRun.empty).calls.flatten).count x
          ≤ 2 * items.count x := by
  refine ⟨?_, calls_length items batch_size.toNat f,
    fun x => calls_count (by omega) items f x⟩
  intro hok
  rw [calls_length items batch_size.toNat f]
  have h1 : ((chunksOf items batch_size.toNat).map (fun c =>
      match f c with
      | .ok _ => 1
      | .error _ => 1 + c.length)).sum = (chunksOf items batch_size.toNat).length := by
    apply sum_map_one
    intro c hc
    obtain ⟨r, hr⟩ := hok c hc
    simp [hr]
  rw [h1, chunksOf_length]
  rfl

/-- Witness for C3: three items in chunks of two, all bulk calls succeed,
so exactly two invocations. -/
theorem claim_C3_witness :
    (runBatches [1, 2, 3] ((2 : Int)).toNat
      (fun l : List Nat => Except.ok l) BatchRun.empty).calls.length = 2 :=
  (claim_C3 [1, 2, 3] 2 (fun l => Except.ok l) (by norm_num)).1
    (fun c _ => ⟨c, rfl⟩)

/-- Claim C4: for chunk size ≥ 1 the slices passed to the bulk path are
exactly a partition of the input into contiguous, non-empty, in-order
chunks of at most `chunk_size` items where only the last chunk may be
shorter; the bulk call of each chunk receives the chunk itself; and the
success list is the concatenation, chunk by chunk in submission order, of
each chunk's contribution, which for a chunk whose bulk call succeeds is
exactly the list the transformation function returned, in order. -/
theorem claim_C4 {T : Type u} {U : Type v} (items : List T) (bs : Nat)
    (f : List T → Except String (List U)) (hbs : 1 ≤ bs) :
    (chunksOf items bs).flatten = items
    ∧ (∀ c ∈ chunksOf items bs, c ≠ [] ∧ c.length ≤ bs)
    ∧ (∀ (i : Nat) (h : i < (chunksOf items bs).length),
        i + 1 < (chunksOf items bs).length → ((chunksOf items bs)[i]).length = bs)
    ∧ (∀ c ∈ chunksOf items bs, (chunkCalls f c).head? = some c)
    ∧ (runBatches items bs f BatchRun.empty).successes
        = ((chunksOf items bs).map (chunkSuccesses f)).flatten
    ∧ (∀ (c : List T) (r : List U), f c = .ok r → chunkSuccesses f c = r) := by
  refine ⟨chunksOf_flatten (by omega) items, chunksOf_mem_props (by omega) items,
    ?_, ?_, ?_, ?_⟩
  · intro i h hlast
    exact chunksOf_getElem_length (by omega) items i h hlast
  · intro c _
    cases h : f c with
    | ok r => simp [chunkCalls, runChunk_ok h]
    | error e => simp [chunkCalls, runChunk_error h]
  · rw [runBatches_decomp]
  · intro c r h
    rw [chunkSuccesses, runChunk_ok h]

/-- Witness for C4 on a concrete input. -/
theorem claim_C4_witness :
    (chunksOf [1, 2, 3, 4, 5] 2).flatten = ([1, 2, 3, 4, 5] : List Nat) :=
  (claim_C4 [1, 2, 3, 4, 5] 2 (fun l : List Nat => Except.ok l) (by norm_num)).1

/-- Claim C5: on `items = [1,2,3,4,5]` with chunk size 2 and a deterministic
transformation that succeeds on `[1,2]` and `[3,4]` but raises on `[5]`,
`process_batches` returns the four results of the bulk path as successes and
`[(5, stringified error)]` as failures, the trace showing the failed bulk
call on `[5]` followed by the singleton fallback call `[5]` that fails
again. -/
theorem claim_C5 :
    process_batches itemsC5 2 fC5 = .ok ([101, 102, 103, 104], [(5, "boom")])
    ∧ (runBatchesI itemsC5 2 fC5).map (fun r => r.calls)
        = .ok [[1, 2], [3, 4], [5], [5]] :=
  ⟨rfl, rfl⟩

/-- Counterexample to claim C6 as stated: the chunk size is not arbitrary.
At chunk size `0` an empty input does not yield `([], [])`: the zero-step
range raises `ValueError` before the loop can run, so `process_batches`
returns an error. -/
theorem claim_C6_counterexample :
    process_batches ([] : List Nat) 0 (fun l => Except.ok l)
      = .error "range() arg 3 must not be zero"
    ∧ process_batches ([] : List Nat) 0 (fun l => Except.ok l) ≠ .ok ([], []) := by
  refine ⟨rfl, ?_⟩
  intro h
  rw [process_batches, runBatchesI, if_pos rfl] at h
  simp [Except.map] at h

/-- Claim C6 (amended): on an empty input with any nonzero chunk size
(for instance 50) `process_batches` returns empty successes and failures
and the transformation function is never invoked (the call trace is
empty); at chunk size 0 it instead raises the zero-step range error. -/
theorem claim_C6 {T : Type u} {U : Type v} (batch_size : Int)
    (f : List T → Except String (List U)) (hbs : batch_size ≠ 0) :
    process_batches ([] : List T) batch_size f = .ok ([], [])
    ∧ runBatchesI ([] : List T) batch_size f = .ok BatchRun.empty := by
  have h : runBatchesI ([] : List T) batch_size f = .ok BatchRun.empty := by
    rw [runBatchesI, if_neg hbs]
    by_cases hneg : batch_size < 0
    · rw [if_pos hneg]
    · rw [if_neg hneg]
      simp [runBatches, chunksOf_nil]
  exact ⟨by rw [process_batches, h]; rfl, h⟩

/-- Witness for the amended C6 at the spec's example chunk size 50. -/
theorem claim_C6_witness :
    process_batches ([] : List Nat) 50 (fun l => Except.ok l) = .ok ([], [])
    ∧ runBatchesI ([] : List Nat) 50 (fun l => Except.ok l) = .ok BatchRun.empty :=
  claim_C6 50 (fun l => Except.ok l) (by norm_num)

/-- Claim C7: for a non-empty input and chunk size ≥ 1, if the
transformation function raises on every argument list, `process_batches`
returns no successes and a failure list whose items are exactly the input
items in order, each paired with the stringified error of its own singleton
call. -/
theorem claim_C7 {T : Type u} {U : Type v} (items : List T) (batch_size : Int)
    (f : List T → Except String (List U)) (hne : items ≠ []) (hbs : 1 ≤ batch_size)
    (hferr : ∀ l : List T, ∃ e, f l = .error e) :
    ∃ fl, process_batches items batch_size f = .ok ([], fl)
      ∧ fl.map Prod.fst = items ∧ ∀ p ∈ fl, f [p.1] = .error p.2 := by
  have hsucc : (runBatches items batch_size.toNat f BatchRun.empty).successes = [] := by
    rw [runBatches_decomp]
    have h1 : (chunksOf items batch_size.toNat).map (chunkSuccesses f)
        = (chunksOf items batch_size.toNat).map (fun _ => ([] : List U)) :=
      List.map_congr_left (fun c _ => chunkSuccesses_allfail hferr c)
    rw [h1]
    simp
  have hfst : ((runBatches items batch_size.toNat f BatchRun.empty).failures).map
      Prod.fst = items := by
    rw [runBatches_decomp]
    simp only [List.map_flatten, List.map_map]
    have h2 : (chunksOf items batch_size.toNat).map
        (List.map Prod.fst ∘ chunkFailures f)
        = (chunksOf items batch_size.toNat).map (fun c => c) :=
      List.map_congr_left (fun c _ => chunkFailures_allfail hferr c)
    rw [h2, List.map_id']
    exact chunksOf_flatten (by omega) items
  refine ⟨_, ?_, hfst, failures_mem items batch_size.toNat f⟩
  rw [process_batches_pos items hbs f, hsucc]

/-- Witness for C7 on a concrete always-failing run. -/
theorem claim_C7_witness :
    ∃ fl, process_batches [1, 2, 3] (2 : Int)
        (fun _ : List Nat => (Except.error "down" : Except String (List Nat)))
        = .ok ([], fl)
      ∧ fl.map Prod.fst = [1, 2, 3]
      ∧ ∀ p ∈ fl, (fun _ : List Nat =>
          (Except.error "down" : Except String (List Nat))) [p.1] = .error p.2 :=
  claim_C7 [1, 2, 3] 2 (fun _ => Except.error "down") (by simp) (by norm_num)
    (fun _ => ⟨"down", rfl⟩)

/-- Claim C8: for a non-empty input, a negative `batch_size` makes
`process_batches` return `([], [])` with zero invocations of the
transformation function — silently dropping every item — while
`batch_size = 0` raises (the chunking range has a zero step) instead of
returning a report; so the per-item accounting and never-fatal guarantees
hold only under the `chunk_size ≥ 1` precondition. -/
theorem claim_C8 {T : Type u} {U : Type v} (items : List T) (batch_size : Int)
    (f : List T → Except String (List U)) (hne : items ≠ []) :
    (batch_size < 0 →
        process_batches items batch_size f = .ok ([], [])
        ∧ runBatchesI items batch_size f = .ok BatchRun.empty)
    ∧ (batch_size = 0 → ∃ e, process_batches items batch_size f = .error e) := by
  constructor
  · intro h
    have h2 : runBatchesI items batch_size f = .ok BatchRun.empty := by
      unfold runBatchesI
      rw [if_neg (by omega), if_pos h]
    exact ⟨by rw [process_batches, h2]; rfl, h2⟩
  · intro h
    refine ⟨"range() arg 3 must not be zero", ?_⟩
    rw [process_batches, runBatchesI, if_pos h]
    rfl

/-- Witness for C8: one item, batch size `-1`, every item dropped. -/
theorem claim_C8_witness :
    process_batches [0] (-1 : Int) (fun l : List Nat => Except.ok l) = .ok ([], []) :=
  ((claim_C8 [0] (-1) (fun l : List Nat => Except.ok l) (by simp)).1 (by norm_num)).1

/-- Claim C9: for chunk size ≥ 1 the items of the failure list returned by
`process_batches` appear in the same relative order as in the input list
(the projection of the failures to items is a sublist of the input). -/
theorem claim_C9 {T : Type u} {U : Type v} (items : List T) (batch_size : Int)
    (f : List T → Except String (List U)) (hbs : 1 ≤ batch_size) :
    ∀ s fl, process_batches items batch_size f = .ok (s, fl) →
      (fl.map Prod.fst).Sublist items := by
  intro s fl h
  rw [process_batches_pos items hbs f] at h
  simp only [Except.ok.injEq, Prod.mk.injEq] at h
  obtain ⟨-, hfl⟩ := h
  rw [← hfl]
  exact failures_fst_sublist (by omega) items f

/-- Witness for C9 on a concrete failing run. -/
theorem claim_C9_witness :
    (([(1, "fail"), (2, "fail")] : List (Nat × String)).map Prod.fst).Sublist
      ([1, 2] : List Nat) :=
  claim_C9 [1, 2] 1 (fun _ : List Nat => (Except.error "fail" : Except String (List Nat)))
    (by norm_num) [] [(1, "fail"), (2, "fail")] rfl

/-- Claim C10: `batch_modify_emails` and `batch_trash_emails` pass
`batch_size or 50` to `process_batches`: `None` and `0` are both coerced to
`50` (so a caller-supplied batch size of `0` never reaches the executor and
never causes an error), while any negative batch size passes through
unchanged. -/
theorem claim_C10 :
    pyOr50 none = 50
    ∧ pyOr50 (some 0) = 50
    ∧ (∀ b : Int, b < 0 → pyOr50 (some b) = b)
    ∧ (∀ (ids : List String) (bsz : Option Int) (m : String → Except String Unit),
        batch_modify_emails_core ids bsz m
          = process_batches ids (pyOr50 bsz) (modify_batch m))
    ∧ (∀ (ids : List String) (bsz : Option Int) (tr : String → Except String Unit),
        batch_trash_emails_core ids bsz tr
          = process_batches ids (pyOr50 bsz) (trash_batch tr))
    ∧ (∀ (A B : Type) (items : List A) (bsz : Option Int)
          (f : List A → Except String (List B)),
        ∃ r, process_batches items (pyOr50 bsz) f = .ok r) := by
  refine ⟨rfl, rfl, ?_, fun _ _ _ => rfl, fun _ _ _ => rfl, ?_⟩
  · intro b hb
    have hb0 : b ≠ 0 := by omega
    simp [pyOr50, hb0]
  · intro A B items bsz f
    have hne : pyOr50 bsz ≠ 0 := by
      cases bsz with
      | none => simp [pyOr50]
      | some b => by_cases hb : b = 0 <;> simp [pyOr50, hb]
    rw [process_batches, runBatchesI, if_neg hne]
    by_cases hneg : pyOr50 bsz < 0
    · rw [if_pos hneg]
      exact ⟨_, rfl⟩
    · rw [if_neg hneg]
      exact ⟨_, rfl⟩

/-- Witness for C10: a negative batch size passes through unchanged. -/
theorem claim_C10_witness : pyOr50 (some (-7)) = -7 :=
  claim_C10.2.2.1 (-7) (by norm_num)

end GmailBatch
